import Mathlib

/-!
Verification of the Berry memory-store access-control and search core.

The definitions below are a shallow embedding of the TypeScript source:

* `packages/server/src/types.ts` — the domain model (`MemoryMetadata`,
  `Memory`, `VisibilityContext`, `SearchMemoriesRequest`, `HUMAN_OWNER_ID`);
* `packages/server/src/services/chromadb.ts` — the storage adapter and
  search engine (`parseMetadata`, `toChromaMetadata`, `getMemory`,
  `deleteMemory`, `buildWhereClause`, `buildVisibilityFilter`,
  `checkMemoryAccess`, `filterByVisibility`, `searchMemories`,
  `updateVisibility`);
* the memory HTTP routes (`GET /v1/memory/:id`, `DELETE /v1/memory/:id`,
  `PATCH /v1/memory/:id/visibility`);
* the CLI API client (`searchMemories` position-based scoring and
  `transformMemory`).

Modelling conventions: JavaScript `string` becomes `String`, optional
fields become `Option`, and JavaScript truthiness tests on strings
(`if (s)`) are modelled explicitly (`""` is falsy).  Enumerated string
unions (`MemoryType`, `VisibilityLevel`) are modelled as `String`,
because the source reads them back from the store through unchecked
casts, so at runtime any string can occur.  Fallible operations
(`JSON.parse` throwing, search rejecting) return `Option`, with `none`
for the thrown-error outcome.  The ChromaDB backend is external to the
repository; its documented behaviour (metadata-predicate listing,
get/update/delete by id) is modelled over an explicit store, and
theorems about the post-backend pipeline quantify over arbitrary raw
backend results wherever the backend behaviour is irrelevant.
-/

/-- JavaScript truthiness of an optional string: `undefined` and `""`
are falsy, every other string is truthy. -/
def strTruthy : Option String → Bool
  | none => false
  | some s => s ≠ ""

/-- From `types.ts`: `export const HUMAN_OWNER_ID = "human"` — the
reserved actor identifier for the human administrator. -/
def HUMAN_OWNER_ID : String := "human"

/-- From `types.ts` `interface MemoryMetadata`.  Optional fields are
`Option`; `visibility` is an `Option String` because the source casts
whatever string the store holds (`as VisibilityLevel | undefined`). -/
structure MemoryMetadata where
  createdAt : String
  createdBy : Option String := none
  respondedBy : Option String := none
  response : Option String := none
  respondedAt : Option String := none
  tags : Option (List String) := none
  references : Option (List String) := none
  owner : Option String := none
  visibility : Option String := none
  sharedWith : Option (List String) := none
  deriving Repr, DecidableEq

/-- From `types.ts` `interface Memory`.  `type` is `String` (the source
reads it back from the store via an unchecked cast). -/
structure Memory where
  id : String
  content : String
  type : String
  metadata : MemoryMetadata
  deriving Repr, DecidableEq

/-- From `types.ts` `interface VisibilityContext`: the per-request
acting identity and admin-override flag. -/
structure VisibilityContext where
  asActor : String
  adminAccess : Bool
  deriving Repr, DecidableEq

/-- Owner resolution as written in `chromadb.ts` (`checkMemoryAccess`)
and in the delete/patch routes: `memory.metadata.owner ||
memory.metadata.createdBy` — JavaScript `||` falls back when `owner`
is `undefined` or the empty string. -/
def resolveOwner (m : MemoryMetadata) : Option String :=
  if strTruthy m.owner then m.owner else m.createdBy

/-- From `chromadb.ts` `checkMemoryAccess(memory, asActor, adminAccess)`:
admin bypass, then JS-falsy visibility treated as legacy/public, then
the switch over `"public"` / `"private"` / `"shared"` with a default
deny. -/
def checkMemoryAccess (memory : Memory) (asActor : String)
    (adminAccess : Bool) : Bool :=
  if asActor = HUMAN_OWNER_ID ∧ adminAccess then true
  else
    let visibility := memory.metadata.visibility
    let owner := resolveOwner memory.metadata
    if ¬ strTruthy visibility then true
    else
      let v := visibility.getD ""
      if v = "public" then true
      else if v = "private" then owner == some asActor
      else if v = "shared" then
        owner == some asActor ||
          (memory.metadata.sharedWith.getD []).contains asActor
      else false

/-- The decision table exactly as the specification words it (§4.1):
admin override; absent visibility allows; `public` allows; `private`
iff actor is the resolved owner; `shared` iff owner or member of
`sharedWith`; **any other visibility value denies**.  Written from the
words of the spec for comparison with `checkMemoryAccess`, which was
translated from the code. -/
def specCanAccess (memory : Memory) (asActor : String)
    (adminAccess : Bool) : Bool :=
  if asActor = HUMAN_OWNER_ID ∧ adminAccess then true
  else
    match memory.metadata.visibility with
    | none => true
    | some "public" => true
    | some "private" => resolveOwner memory.metadata == some asActor
    | some "shared" =>
        resolveOwner memory.metadata == some asActor ||
          (memory.metadata.sharedWith.getD []).contains asActor
    | some _ => false

/-!
### JSON encoding of string arrays

`chromadb.ts` stores array-valued metadata fields via `JSON.stringify`
and reads them back via `JSON.parse`.  These are modelled for the
array-of-strings case: the encoder emits the canonical (whitespace-free)
form `JSON.stringify` produces, escaping quote, backslash, newline, tab
and carriage return; the decoder is a recursive-descent parser for that
grammar, returning `none` where `JSON.parse` would throw.
-/

/-- Escape one character inside a JSON string literal. -/
def escStringChar (c : Char) : List Char :=
  if c = '"' then ['\\', '"']
  else if c = '\\' then ['\\', '\\']
  else if c = '\n' then ['\\', 'n']
  else if c = '\t' then ['\\', 't']
  else if c = '\r' then ['\\', 'r']
  else [c]

/-- Unescape the character following a backslash in a JSON string. -/
def unescChar (c : Char) : Char :=
  if c = 'n' then '\n'
  else if c = 't' then '\t'
  else if c = 'r' then '\r'
  else c

/-- JSON encoding of one string: quote, escaped body, quote. -/
def jsonEncodeString (s : String) : List Char :=
  '"' :: (s.data.flatMap escStringChar) ++ ['"']

/-- Items of a JSON array of strings, comma separated, with the closing
bracket. -/
def jsonEncodeItems : List String → List Char
  | [] => [']']
  | [s] => jsonEncodeString s ++ [']']
  | s :: rest => jsonEncodeString s ++ ',' :: jsonEncodeItems rest

/-- Model of `JSON.stringify` on an array of strings (canonical form). -/
def jsonEncodeStrList (l : List String) : String :=
  ⟨'[' :: jsonEncodeItems l⟩

/-- Scan a JSON string body up to the closing quote, accumulating the
decoded characters in reverse. -/
def parseJsonStringAux (acc : List Char) : List Char → Option (List Char × List Char)
  | [] => none
  | c :: rest =>
    if c = '"' then some (acc.reverse, rest)
    else if c = '\\' then
      match rest with
      | [] => none
      | e :: rest2 => parseJsonStringAux (unescChar e :: acc) rest2
    else parseJsonStringAux (c :: acc) rest

/-- Parse one JSON string literal (opening quote included). -/
def parseJsonString (cs : List Char) : Option (List Char × List Char) :=
  match cs with
  | '"' :: rest => parseJsonStringAux [] rest
  | _ => none

/-- Parse the items of a JSON string array after the opening bracket:
a string, then repeatedly a comma and a string, until the closing
bracket, which must end the input.  `fuel` bounds the recursion. -/
def parseJsonItems (acc : List String) : Nat → List Char → Option (List String)
  | 0, _ => none
  | fuel + 1, cs =>
    match parseJsonString cs with
    | none => none
    | some (s, rest) =>
      match rest with
      | ']' :: tail => if tail = [] then some ((⟨s⟩ :: acc).reverse) else none
      | ',' :: tail => parseJsonItems (⟨s⟩ :: acc) fuel tail
      | _ => none

/-- Model of `JSON.parse` restricted to arrays of strings; `none` models a
thrown `SyntaxError` (or a non-array value, which the source would
cast unsoundly). -/
def jsonParseStrList (s : String) : Option (List String) :=
  match s.data with
  | '[' :: ']' :: rest => if rest = [] then some [] else none
  | '[' :: cs => parseJsonItems [] (cs.length + 1) cs
  | _ => none

/-!
### The ChromaDB metadata representation and the adapter codec
-/

/-- The flat metadata record persisted in ChromaDB for one memory.
All values are strings here; array-valued domain fields are held as
their JSON encodings.  `type` and `createdAt` are written
unconditionally by the adapter, the rest only when truthy/non-empty
(a missing key is `none`). -/
structure ChromaMetadata where
  type : String
  createdAt : String
  createdBy : Option String := none
  respondedBy : Option String := none
  response : Option String := none
  respondedAt : Option String := none
  tags : Option String := none
  references : Option String := none
  owner : Option String := none
  visibility : Option String := none
  sharedWith : Option String := none
  deriving Repr, DecidableEq

/-- Decode one optional JSON-encoded array field the way
`parseMetadata` does: `chromaMetadata.f ? JSON.parse(f) : undefined` —
a missing or falsy (empty) stored string decodes to `undefined`
without parsing; otherwise `JSON.parse` runs and may throw (`none`
outer layer). -/
def optJsonField : Option String → Option (Option (List String))
  | none => some none
  | some s => if s = "" then some none else (jsonParseStrList s).map some

/-- From `chromadb.ts` `parseMetadata(chromaMetadata)`: scalar fields
pass through unchecked casts; `tags` / `references` / `sharedWith` are
conditionally `JSON.parse`d.  A parse failure is a thrown exception,
modelled as `none`. -/
def parseMetadata (c : ChromaMetadata) : Option MemoryMetadata := do
  let tags ← optJsonField c.tags
  let references ← optJsonField c.references
  let sharedWith ← optJsonField c.sharedWith
  pure { createdAt := c.createdAt, createdBy := c.createdBy,
         respondedBy := c.respondedBy, response := c.response,
         respondedAt := c.respondedAt, tags := tags,
         references := references, owner := c.owner,
         visibility := c.visibility, sharedWith := sharedWith }

/-- Keep an optional string field only when truthy, as the
`if (metadata.f) chromaMetadata.f = metadata.f` lines do. -/
def keepStr (o : Option String) : Option String :=
  if strTruthy o then o else none

/-- Keep an optional array field only when present and non-empty, in
which case it is stored JSON-encoded, as the
`if (metadata.f && metadata.f.length > 0)` lines do. -/
def keepList : Option (List String) → Option String
  | none => none
  | some l => if l.length > 0 then some (jsonEncodeStrList l) else none

/-- From `chromadb.ts` `toChromaMetadata(type, metadata)`: `type` and
`createdAt` always stored; every other field stored only when truthy
(strings) or non-empty (arrays, JSON-encoded). -/
def toChromaMetadata (type : String) (m : MemoryMetadata) : ChromaMetadata :=
  { type := type
    createdAt := m.createdAt
    createdBy := keepStr m.createdBy
    respondedBy := keepStr m.respondedBy
    response := keepStr m.response
    respondedAt := keepStr m.respondedAt
    tags := keepList m.tags
    references := keepList m.references
    owner := keepStr m.owner
    visibility := keepStr m.visibility
    sharedWith := keepList m.sharedWith }

/-!
### Round-trip lemmas for the JSON string-array codec
-/

/-- Building a string from the characters of a string gives it back. -/
theorem stringMk_data (s : String) : (⟨s.data⟩ : String) = s := rfl

/-- Consuming the escape of one character decodes that character. -/
theorem parseJsonStringAux_step (c : Char) (acc tail : List Char) :
    parseJsonStringAux acc (escStringChar c ++ tail) =
      parseJsonStringAux (c :: acc) tail := by
  by_cases h1 : c = '"'
  · subst h1; rw [parseJsonStringAux.eq_def]; simp [escStringChar, unescChar]
  by_cases h2 : c = '\\'
  · subst h2; rw [parseJsonStringAux.eq_def]; simp [escStringChar, unescChar]
  by_cases h3 : c = '\n'
  · subst h3; rw [parseJsonStringAux.eq_def]; simp [escStringChar, unescChar]
  by_cases h4 : c = '\t'
  · subst h4; rw [parseJsonStringAux.eq_def]; simp [escStringChar, unescChar]
  by_cases h5 : c = '\r'
  · subst h5; rw [parseJsonStringAux.eq_def]; simp [escStringChar, unescChar]
  have hesc : escStringChar c = [c] := by
    simp [escStringChar, h1, h2, h3, h4, h5]
  rw [hesc, parseJsonStringAux.eq_def]
  simp [h1, h2]

/-- Scanning the encoded body of a string up to its closing quote
recovers exactly the original characters. -/
theorem parseJsonStringAux_encode (cs : List Char) :
    ∀ (acc rest : List Char),
      parseJsonStringAux acc (cs.flatMap escStringChar ++ '"' :: rest) =
        some (acc.reverse ++ cs, rest) := by
  induction cs with
  | nil =>
    intro acc rest
    rw [parseJsonStringAux.eq_def]
    simp
  | cons c cs ih =>
    intro acc rest
    have h : (c :: cs).flatMap escStringChar ++ '"' :: rest =
        escStringChar c ++ (cs.flatMap escStringChar ++ '"' :: rest) := by
      simp
    rw [h, parseJsonStringAux_step, ih]
    simp

/-- Parsing one encoded string literal recovers the string. -/
theorem parseJsonString_encode (s : String) (rest : List Char) :
    parseJsonString (jsonEncodeString s ++ rest) = some (s.data, rest) := by
  have h : jsonEncodeString s ++ rest =
      '"' :: (s.data.flatMap escStringChar ++ '"' :: rest) := by
    simp [jsonEncodeString]
  rw [h]
  exact parseJsonStringAux_encode s.data [] rest

/-- Parsing the encoded items of a non-empty array recovers the items,
given enough fuel. -/
theorem parseJsonItems_encode (l : List String) :
    ∀ (s : String) (acc : List String) (fuel : Nat), l.length < fuel →
      parseJsonItems acc fuel (jsonEncodeItems (s :: l)) =
        some (acc.reverse ++ s :: l) := by
  induction l with
  | nil =>
    intro s acc fuel hf
    obtain ⟨f, rfl⟩ := Nat.exists_eq_succ_of_ne_zero (Nat.pos_iff_ne_zero.mp hf)
    show parseJsonItems acc (f + 1) (jsonEncodeString s ++ [']']) = _
    simp only [parseJsonItems, parseJsonString_encode]
    simp [stringMk_data]
  | cons t l ih =>
    intro s acc fuel hf
    obtain ⟨f, rfl⟩ := Nat.exists_eq_succ_of_ne_zero
      (Nat.pos_iff_ne_zero.mp (Nat.lt_of_le_of_lt (Nat.zero_le _) hf))
    show parseJsonItems acc (f + 1)
        (jsonEncodeString s ++ ',' :: jsonEncodeItems (t :: l)) = _
    simp only [parseJsonItems, parseJsonString_encode]
    rw [ih t (⟨s.data⟩ :: acc) f (Nat.lt_of_succ_lt_succ hf)]
    simp [stringMk_data]

/-- The encoded items list is at least as long as the item count. -/
theorem length_le_jsonEncodeItems (l : List String) :
    l.length ≤ (jsonEncodeItems l).length := by
  induction l with
  | nil => simp [jsonEncodeItems]
  | cons s l ih =>
    cases l with
    | nil => simp [jsonEncodeItems]
    | cons t l' =>
      simp only [jsonEncodeItems, List.length_append, List.length_cons] at *
      omega

/-- Round trip of the JSON string-array codec: decoding an encoded
array recovers the array. -/
theorem jsonParse_jsonEncode (l : List String) :
    jsonParseStrList (jsonEncodeStrList l) = some l := by
  cases l with
  | nil => rfl
  | cons s l' =>
    obtain ⟨body, hbody⟩ : ∃ body, jsonEncodeItems (s :: l') = '"' :: body := by
      cases l' with
      | nil =>
        exact ⟨s.data.flatMap escStringChar ++ ['"'] ++ [']'],
          by simp [jsonEncodeItems, jsonEncodeString]⟩
      | cons t l'' =>
        exact ⟨s.data.flatMap escStringChar ++ ['"'] ++ ',' :: jsonEncodeItems (t :: l''),
          by simp [jsonEncodeItems, jsonEncodeString]⟩
    have hlen : l'.length < ('"' :: body).length + 1 := by
      have h := length_le_jsonEncodeItems (s :: l')
      rw [hbody] at h
      simp only [List.length_cons] at h ⊢
      omega
    have hmain := parseJsonItems_encode l' s [] (('"' :: body).length + 1) hlen
    rw [hbody] at hmain
    have henc : jsonEncodeStrList (s :: l') = ⟨'[' :: '"' :: body⟩ := by
      simp [jsonEncodeStrList, hbody]
    rw [henc]
    exact hmain

/-!
### Store model and CRUD operations

The ChromaDB collection is modelled as a list of stored entries.  The
backend operations used by the adapter — get by id, delete by id,
update metadata by id, and metadata-predicate listing with a result
cap — follow the documented ChromaDB semantics (an external
collaborator of the repository, described in §6 of the specification).
-/

/-- One record of the backing collection: document text plus flat
metadata. -/
structure StoreEntry where
  id : String
  document : String
  metadata : ChromaMetadata
  deriving Repr, DecidableEq

/-- The backing collection. -/
abbrev Store := List StoreEntry

/-- Backend get-by-id: the first entry with the requested id. -/
def storeGet (store : Store) (id : String) : Option StoreEntry :=
  store.find? (fun e => e.id == id)

/-- From `chromadb.ts` `getMemory(id)`: fetch by id, return `null`
when no entry (or a falsy document) comes back, otherwise decode the
metadata.  Outer `none` models a thrown decoding error; `some none`
is the not-found result. -/
def getMemory (store : Store) (id : String) : Option (Option Memory) :=
  match storeGet store id with
  | none => some none
  | some e =>
    if e.document = "" then some none
    else
      match parseMetadata e.metadata with
      | none => none
      | some md => some (some ⟨e.id, e.document, e.metadata.type, md⟩)

/-- From `chromadb.ts` `deleteMemory(id)`: existence check via
`getMemory`, then backend delete of that id.  Returns the success
flag and the resulting store; outer `none` models a thrown error. -/
def deleteMemory (store : Store) (id : String) : Option (Bool × Store) :=
  match getMemory store id with
  | none => none
  | some none => some (false, store)
  | some (some _) => some (true, store.filter (fun e => ¬ e.id = id))

/-- From `chromadb.ts` `updateVisibility(id, visibility, sharedWith?)`:
fetch the memory, spread its metadata with the new `visibility` and
the `sharedWith` argument (the spread writes the key even when the
argument is `undefined`), re-encode, and overwrite the stored
metadata for that id.  Returns the updated memory (or `none` inner
for not-found) and the resulting store. -/
def updateVisibility (store : Store) (id : String) (visibility : String)
    (sharedWith : Option (List String)) : Option (Option Memory) × Store :=
  match getMemory store id with
  | none => (none, store)
  | some none => (some none, store)
  | some (some memory) =>
    let updatedMetadata :=
      { memory.metadata with visibility := some visibility,
                             sharedWith := sharedWith }
    let chromaMetadata := toChromaMetadata memory.type updatedMetadata
    let newStore := store.map
      (fun e => if e.id = id then { e with metadata := chromaMetadata } else e)
    (some (some { memory with metadata := updatedMetadata }), newStore)

/-!
### HTTP route handlers for get and delete

From the memory routes file: `GET /v1/memory/:id` and
`DELETE /v1/memory/:id`.  Both take the optional `asActor` query
parameter; a missing or empty (JS-falsy) value skips the access
check entirely.
-/

/-- Outcome of a route handler, abstracting the HTTP status codes:
200 with a payload, 404, 403, or 500. -/
inductive RouteResult (α : Type) where
  | ok (val : α)
  | notFound
  | denied
  | serverError
  deriving Repr, DecidableEq

/-- From the `GET /v1/memory/:id` handler: fetch, 404 when absent,
and only when `asActor` is truthy run `checkMemoryAccess` (403 on
failure); otherwise return the memory unchecked. -/
def routeGetMemory (store : Store) (id : String) (asActor : Option String)
    (adminAccess : Bool) : RouteResult Memory :=
  match getMemory store id with
  | none => .serverError
  | some none => .notFound
  | some (some memory) =>
    if strTruthy asActor then
      if checkMemoryAccess memory (asActor.getD "") adminAccess then .ok memory
      else .denied
    else .ok memory

/-- From the `DELETE /v1/memory/:id` handler: when `asActor` is truthy,
fetch first and require the actor to be the resolved owner or the
human admin with the override flag (403 otherwise, 404 when absent);
then call `deleteMemory`.  When `asActor` is missing or falsy the
ownership check is skipped entirely. -/
def routeDeleteMemory (store : Store) (id : String) (asActor : Option String)
    (adminAccess : Bool) : RouteResult Unit × Store :=
  let preCheck : Option (RouteResult Unit) :=
    if strTruthy asActor then
      let a := asActor.getD ""
      match getMemory store id with
      | none => some .serverError
      | some none => some .notFound
      | some (some memory) =>
        let owner := resolveOwner memory.metadata
        let isOwner := owner == some a
        let isHumanAdmin := a = HUMAN_OWNER_ID ∧ adminAccess
        if ¬ isOwner ∧ ¬ isHumanAdmin then some .denied else none
    else none
  match preCheck with
  | some r => (r, store)
  | none =>
    match deleteMemory store id with
    | none => (.serverError, store)
    | some (false, s) => (.notFound, s)
    | some (true, s) => (.ok (), s)

/-!
### Search requests and the WHERE-clause language
-/

/-- From `types.ts` `interface DateRangeFilter` (fields `from` / `to`,
renamed here because `from` is a Lean keyword). -/
structure DateRangeFilter where
  fromDate : Option String := none
  toDate : Option String := none
  deriving Repr, DecidableEq

/-- From `types.ts` `interface SearchFilters`. -/
structure SearchFilters where
  type : Option String := none
  createdBy : Option String := none
  tags : Option (List String) := none
  references : Option (List String) := none
  dateRange : Option DateRangeFilter := none
  deriving Repr, DecidableEq

/-- From `types.ts` `interface SearchMemoriesRequest`. -/
structure SearchMemoriesRequest where
  query : Option String := none
  filters : Option SearchFilters := none
  limit : Option Nat := none
  deriving Repr, DecidableEq

/-- The fragment of the ChromaDB WHERE-clause language the adapter
builds: `$eq`, `$gte`, `$lte` on one key, and `$and` / `$or` lists. -/
inductive WhereClause where
  | eq (key value : String)
  | gte (key value : String)
  | lte (key value : String)
  | and (cs : List WhereClause)
  | or (cs : List WhereClause)

/-- Look up one metadata key of a stored record; `none` when the key
was not stored. -/
def ChromaMetadata.getField (c : ChromaMetadata) : String → Option String
  | "type" => some c.type
  | "createdAt" => some c.createdAt
  | "createdBy" => c.createdBy
  | "respondedBy" => c.respondedBy
  | "response" => c.response
  | "respondedAt" => c.respondedAt
  | "tags" => c.tags
  | "references" => c.references
  | "owner" => c.owner
  | "visibility" => c.visibility
  | "sharedWith" => c.sharedWith
  | _ => none

mutual

/-- ChromaDB WHERE-clause evaluation on one record: a comparison on a
missing key never matches; `$gte` / `$lte` compare strings
lexicographically. -/
def WhereClause.eval (md : ChromaMetadata) : WhereClause → Bool
  | .eq k v => md.getField k == some v
  | .gte k v =>
    match md.getField k with
    | some x => v ≤ x
    | none => false
  | .lte k v =>
    match md.getField k with
    | some x => x ≤ v
    | none => false
  | .and cs => WhereClause.evalAll md cs
  | .or cs => WhereClause.evalAny md cs

/-- Conjunction of a `$and` list. -/
def WhereClause.evalAll (md : ChromaMetadata) : List WhereClause → Bool
  | [] => true
  | c :: cs => WhereClause.eval md c && WhereClause.evalAll md cs

/-- Disjunction of a `$or` list. -/
def WhereClause.evalAny (md : ChromaMetadata) : List WhereClause → Bool
  | [] => false
  | c :: cs => WhereClause.eval md c || WhereClause.evalAny md cs

end

/-- From `chromadb.ts` `buildWhereClause(request)`: push `type`,
`createdBy` and the date range to the backend (each only when
truthy); tags and references are deliberately not pushed.  Zero
conditions yield no clause, one is used bare, several are joined
with `$and`. -/
def buildWhereClause (request : SearchMemoriesRequest) : Option WhereClause :=
  match request.filters with
  | none => none
  | some filters =>
    let conditions : List WhereClause :=
      (match filters.type with
       | some t => if t ≠ "" then [.eq "type" t] else []
       | none => []) ++
      (match filters.createdBy with
       | some cb => if cb ≠ "" then [.eq "createdBy" cb] else []
       | none => []) ++
      (match filters.dateRange with
       | none => []
       | some dr =>
         (match dr.fromDate with
          | some f => if f ≠ "" then [.gte "createdAt" f] else []
          | none => []) ++
         (match dr.toDate with
          | some t => if t ≠ "" then [.lte "createdAt" t] else []
          | none => []))
    match conditions with
    | [] => none
    | [c] => some c
    | cs => some (.and cs)

/-- From `chromadb.ts` `buildVisibilityFilter(visibilityContext)`:
no clause for the human admin; otherwise `$or` of public, private
owned by the actor, and all shared records (membership is left to the
post-filter — the comment in the source claims legacy records are
also handled post-query). -/
def buildVisibilityFilter (ctx : VisibilityContext) : Option WhereClause :=
  if ctx.asActor = HUMAN_OWNER_ID ∧ ctx.adminAccess then none
  else
    some (.or [.eq "visibility" "public",
               .and [.eq "visibility" "private", .eq "owner" ctx.asActor],
               .eq "visibility" "shared"])

/-- The combined WHERE clause `searchMemories` sends to the backend:
structured filters, `$and`-ed with the visibility filter when a
context is present. -/
def combinedWhere (request : SearchMemoriesRequest)
    (ctx : Option VisibilityContext) : Option WhereClause :=
  let w := buildWhereClause request
  match ctx with
  | none => w
  | some c =>
    match buildVisibilityFilter c with
    | none => w
    | some vf =>
      match w with
      | some w0 => some (.and [w0, vf])
      | none => some vf

/-!
### The search pipeline
-/

/-- The caller limit after the `request.limit || 10` default (JS `||`:
a zero limit also falls back to 10). -/
def requestedLimitOf (request : SearchMemoriesRequest) : Nat :=
  match request.limit with
  | some n => if n = 0 then 10 else n
  | none => 10

/-- The result cap sent to the backend: tripled when a visibility
context is present. -/
def backendLimitOf (request : SearchMemoriesRequest)
    (ctx : Option VisibilityContext) : Nat :=
  match ctx with
  | some _ => requestedLimitOf request * 3
  | none => requestedLimitOf request

/-- One raw backend result row (parallel `ids` / `documents` /
`metadatas` entries, either of the latter possibly `null`). -/
structure RawResult where
  id : String
  document : Option String
  metadata : Option ChromaMetadata
  deriving Repr, DecidableEq

/-- The tag post-filter from the `searchMemories` loop: when the
request carries a non-empty tags filter, keep a candidate only when
some requested tag appears in its decoded tag list. -/
def passesTagFilter (request : SearchMemoriesRequest)
    (md : MemoryMetadata) : Bool :=
  match request.filters with
  | none => true
  | some filters =>
    match filters.tags with
    | none => true
    | some ts =>
      if ts.length > 0 then ts.any (fun t => (md.tags.getD []).contains t)
      else true

/-- The reference post-filter from the `searchMemories` loop, same
shape as the tag filter. -/
def passesRefFilter (request : SearchMemoriesRequest)
    (md : MemoryMetadata) : Bool :=
  match request.filters with
  | none => true
  | some filters =>
    match filters.references with
    | none => true
    | some rs =>
      if rs.length > 0 then rs.any (fun r => (md.references.getD []).contains r)
      else true

/-- The materialization loop of `searchMemories`: skip rows with a
falsy document or missing metadata, decode (a decoding error rejects
the whole search: outer `none`), apply the tag and reference
post-filters, and build the `Memory` values in order. -/
def buildCandidates (request : SearchMemoriesRequest) :
    List RawResult → Option (List Memory)
  | [] => some []
  | r :: rest =>
    match r.document, r.metadata with
    | some doc, some cmd =>
      if doc = "" then buildCandidates request rest
      else
        match parseMetadata cmd with
        | none => none
        | some md =>
          if ¬ passesTagFilter request md then buildCandidates request rest
          else if ¬ passesRefFilter request md then buildCandidates request rest
          else (buildCandidates request rest).map
            (fun ms => ⟨r.id, doc, cmd.type, md⟩ :: ms)
    | _, _ => buildCandidates request rest

/-- From `chromadb.ts` `filterByVisibility(memories, ctx)`: the human
admin bypasses, everyone else keeps exactly the memories
`checkMemoryAccess` grants. -/
def filterByVisibility (memories : List Memory)
    (ctx : VisibilityContext) : List Memory :=
  if ctx.asActor = HUMAN_OWNER_ID ∧ ctx.adminAccess then memories
  else memories.filter (fun m => checkMemoryAccess m ctx.asActor ctx.adminAccess)

/-- The post-backend part of `searchMemories`: materialize and filter
the raw rows, apply the visibility post-filter when a context is
present, and truncate to the caller limit. -/
def searchMemoriesFromRaw (request : SearchMemoriesRequest)
    (ctx : Option VisibilityContext) (raw : List RawResult) :
    Option (List Memory) := do
  let candidates ← buildCandidates request raw
  let filtered :=
    match ctx with
    | some c => filterByVisibility candidates c
    | none => candidates
  pure (filtered.take (requestedLimitOf request))

/-- The function `searchMemories` on the metadata-only path (no similarity query):
the backend listing returns the stored entries matching the combined
WHERE clause, capped at the (possibly tripled) backend limit and in
store order, and the post-backend pipeline runs on them. -/
def searchMemoriesNoQuery (store : Store) (request : SearchMemoriesRequest)
    (ctx : Option VisibilityContext) : Option (List Memory) :=
  let limit := backendLimitOf request ctx
  let w := combinedWhere request ctx
  let raw := ((store.filter (fun e =>
      match w with
      | some c => c.eval e.metadata
      | none => true)).take limit).map
    (fun e => ⟨e.id, some e.document, some e.metadata⟩)
  searchMemoriesFromRaw request ctx raw

/-!
### CLI API-client search scoring

From the CLI API client: the `/v1/search` response is mapped to
`SearchResult`s whose score is derived from the result position
(`1 - index * 0.1`); JavaScript numbers are modelled as rationals.
-/

/-- The client-side memory shape produced by `transformMemory`. -/
structure ClientMemory where
  id : String
  content : String
  type : String
  tags : List String
  createdBy : String
  createdAt : String
  updatedAt : String
  deriving Repr, DecidableEq

/-- From the API client `transformMemory(serverMemory)`: flatten the
metadata, defaulting `tags` to `[]`, `createdBy` to `"unknown"` and
`updatedAt` to `createdAt` (JS `||` defaults, so empty strings also
fall back). -/
def transformMemory (m : Memory) : ClientMemory :=
  { id := m.id
    content := m.content
    type := m.type
    tags := m.metadata.tags.getD []
    createdBy :=
      if strTruthy m.metadata.createdBy then m.metadata.createdBy.getD ""
      else "unknown"
    createdAt := m.metadata.createdAt
    updatedAt :=
      if strTruthy m.metadata.respondedAt then m.metadata.respondedAt.getD ""
      else m.metadata.createdAt }

/-- JavaScript `Array.prototype.map` with the element index. -/
def mapWithIndexAux (f : Nat → Memory → ClientMemory × ℚ) (i : Nat) :
    List Memory → List (ClientMemory × ℚ)
  | [] => []
  | x :: xs => f i x :: mapWithIndexAux f (i + 1) xs

/-- From the API client `searchMemories`: map the returned array to
`(memory, score)` pairs with `score = 1 - index * 0.1`. -/
def searchResultsOf (data : List Memory) : List (ClientMemory × ℚ) :=
  mapWithIndexAux
    (fun index memory => (transformMemory memory, 1 - (index : ℚ) * (1 / 10)))
    0 data

/-!
### Claim C1 — the access decision table
-/

/-- The decision table of the claim, amended only where the code
forces it: a JS-falsy visibility — absent **or the empty string** —
allows (the code tests `!visibility`); the rest is the table of the
spec unchanged. -/
def specCanAccessAmended (memory : Memory) (asActor : String)
    (adminAccess : Bool) : Bool :=
  if asActor = HUMAN_OWNER_ID ∧ adminAccess then true
  else
    match memory.metadata.visibility with
    | none => true
    | some v =>
      if v = "" then true
      else if v = "public" then true
      else if v = "private" then resolveOwner memory.metadata == some asActor
      else if v = "shared" then
        resolveOwner memory.metadata == some asActor ||
          (memory.metadata.sharedWith.getD []).contains asActor
      else false

/-- A memory whose stored visibility is the empty string: not absent,
not one of the three enum values. -/
def c1CexMemory : Memory :=
  ⟨"mem_1", "note", "information",
   { createdAt := "2024-01-01T00:00:00Z", owner := some "alice",
     visibility := some "" }⟩

/-- Claim C1, counterexample: on an empty-string visibility value the
code allows every actor (JS falsiness), while the decision table of
the claim — absent allows, public allows, any other value denies —
denies.  So `checkMemoryAccess` does not implement exactly that
table. -/
theorem C1_counterexample :
    checkMemoryAccess c1CexMemory "bob" false = true ∧
    specCanAccess c1CexMemory "bob" false = false := by
  constructor <;> rfl

/-- Claim C1 (amended): `checkMemoryAccess` implements the decision
table of the spec with "absent" read as JS-falsy — admin override
first; absent **or empty-string** visibility allows; `public` allows;
`private` allows iff the actor is the resolved owner (owner with
truthy-fallback to createdBy); `shared` allows iff owner or
`sharedWith` member; any other visibility value denies. -/
theorem C1_theorem (memory : Memory) (asActor : String) (adminAccess : Bool) :
    checkMemoryAccess memory asActor adminAccess =
      specCanAccessAmended memory asActor adminAccess := by
  unfold checkMemoryAccess specCanAccessAmended
  by_cases hadm : asActor = HUMAN_OWNER_ID ∧ adminAccess
  · simp [hadm]
  · simp only [if_neg hadm]
    cases hv : memory.metadata.visibility with
    | none => simp [strTruthy]
    | some v =>
      by_cases h0 : v = ""
      · subst h0; simp [strTruthy]
      · simp [strTruthy, h0]

/-!
### Claim C2 — search soundness with respect to the access policy
-/

/-- Claim C2: whatever the backend returns, every memory the search
pipeline outputs under a visibility context passes
`checkMemoryAccess` for that context.  Quantifying over arbitrary raw
backend rows covers every store state and both backend paths. -/
theorem C2_theorem (request : SearchMemoriesRequest) (ctx : VisibilityContext)
    (raw : List RawResult) (out : List Memory)
    (h : searchMemoriesFromRaw request (some ctx) raw = some out) :
    ∀ m ∈ out, checkMemoryAccess m ctx.asActor ctx.adminAccess = true := by
  intro m hm
  rcases hcand : buildCandidates request raw with _ | cands
  · rw [searchMemoriesFromRaw, hcand] at h
    simp at h
  · rw [searchMemoriesFromRaw, hcand] at h
    simp only [Option.bind_eq_bind, Option.some_bind, Option.pure_def,
      Option.some.injEq] at h
    subst h
    have hmem : m ∈ filterByVisibility cands ctx :=
      List.take_subset _ _ hm
    unfold filterByVisibility at hmem
    by_cases hadm : ctx.asActor = HUMAN_OWNER_ID ∧ ctx.adminAccess
    · unfold checkMemoryAccess
      simp [hadm]
    · rw [if_neg hadm] at hmem
      exact (List.mem_filter.mp hmem).2

/-- Witness for C2: a concrete raw row holding a private memory of
alice, searched by alice, is granted by the policy. -/
theorem C2_witness :
    checkMemoryAccess
      ⟨"mem_1", "secret", "information",
       { createdAt := "2024-01-01", owner := some "alice",
         visibility := some "private" }⟩ "alice" false = true := by
  refine C2_theorem {} ⟨"alice", false⟩
    [⟨"mem_1", some "secret",
      some { type := "information", createdAt := "2024-01-01",
             owner := some "alice", visibility := some "private" }⟩]
    [⟨"mem_1", "secret", "information",
      { createdAt := "2024-01-01", owner := some "alice",
        visibility := some "private" }⟩] rfl _ ?_
  simp

/-!
### Claim C3 — over-fetch factor and result cap
-/

/-- Claim C3: with a caller limit `L` (defaulting to 10; the route
validation keeps zero out, mirrored by the hypothesis) and a
non-admin visibility context, the cap sent to the backend is exactly
`3 × L`, and the returned list never exceeds `L` elements. -/
theorem C3_theorem (request : SearchMemoriesRequest) (ctx : VisibilityContext)
    (hadm : ¬ (ctx.asActor = HUMAN_OWNER_ID ∧ ctx.adminAccess = true))
    (hlim : request.limit ≠ some 0) :
    backendLimitOf request (some ctx) = 3 * request.limit.getD 10 ∧
      ∀ raw out, searchMemoriesFromRaw request (some ctx) raw = some out →
        out.length ≤ request.limit.getD 10 := by
  have hreq : requestedLimitOf request = request.limit.getD 10 := by
    unfold requestedLimitOf
    cases hl : request.limit with
    | none => rfl
    | some n =>
      have : n ≠ 0 := fun h0 => hlim (by rw [hl, h0])
      simp [this]
  constructor
  · unfold backendLimitOf
    rw [hreq]
    exact Nat.mul_comm _ _
  · intro raw out h
    rcases hcand : buildCandidates request raw with _ | cands
    · rw [searchMemoriesFromRaw, hcand] at h
      simp at h
    · rw [searchMemoriesFromRaw, hcand] at h
      simp only [Option.bind_eq_bind, Option.some_bind, Option.pure_def,
      Option.some.injEq] at h
      subst h
      rw [← hreq]
      exact List.length_take_le _ _

/-- Witness for C3: caller limit 5 with a non-admin context yields a
backend cap of exactly 15. -/
theorem C3_witness :
    backendLimitOf { limit := some 5 } (some ⟨"agent-a", false⟩) =
      3 * (Option.getD (some 5) 10) :=
  (C3_theorem { limit := some 5 } ⟨"agent-a", false⟩ (by simp)
    (by simp)).1

/-!
### Claim C6 — OR semantics of the tag and reference post-filters
-/

/-- A raw backend row materializes to exactly this memory: matching
id, a truthy document equal to the content, and metadata that decodes
to the memory fields. -/
def entryMatches (r : RawResult) (m : Memory) : Prop :=
  r.id = m.id ∧ r.document = some m.content ∧ m.content ≠ "" ∧
    ∃ cmd, r.metadata = some cmd ∧ cmd.type = m.type ∧
      parseMetadata cmd = some m.metadata

/-- A row that cannot materialize `m` can be dropped from the
existential over a cons. -/
theorem exists_entry_cons (r : RawResult) (rest : List RawResult) (m : Memory)
    (hr : ¬ entryMatches r m) :
    (∃ x ∈ r :: rest, entryMatches x m) ↔ ∃ x ∈ rest, entryMatches x m := by
  constructor
  · rintro ⟨x, hx, he⟩
    rcases List.mem_cons.mp hx with rfl | hx'
    · exact absurd he hr
    · exact ⟨x, hx', he⟩
  · rintro ⟨x, hx, he⟩
    exact ⟨x, List.mem_cons_of_mem _ hx, he⟩

/-- Membership in the materialization stage of `searchMemories`: a
memory is among the candidates iff some raw row materializes it and
it passes both the tag and the reference post-filters. -/
theorem mem_buildCandidates (request : SearchMemoriesRequest) :
    ∀ (raw : List RawResult) (out : List Memory),
      buildCandidates request raw = some out → ∀ m : Memory,
      (m ∈ out ↔ (∃ r ∈ raw, entryMatches r m) ∧
        passesTagFilter request m.metadata = true ∧
        passesRefFilter request m.metadata = true) := by
  intro raw
  induction raw with
  | nil =>
    intro out h m
    simp only [buildCandidates, Option.some.injEq] at h
    subst h
    simp
  | cons r rest ih =>
    obtain ⟨rid, rdoc, rmeta⟩ := r
    intro out h m
    cases rdoc with
    | none =>
      simp only [buildCandidates] at h
      rw [ih out h m, ← exists_entry_cons ⟨rid, none, rmeta⟩ rest m
        (by rintro ⟨-, h2, -⟩; exact Option.noConfusion h2)]
    | some doc =>
      cases rmeta with
      | none =>
        simp only [buildCandidates] at h
        rw [ih out h m, ← exists_entry_cons ⟨rid, some doc, none⟩ rest m
          (by rintro ⟨-, -, -, cmd, h4, -⟩; exact Option.noConfusion h4)]
      | some cmd =>
        simp only [buildCandidates] at h
        by_cases hdoc : doc = ""
        · rw [if_pos hdoc] at h
          subst hdoc
          rw [ih out h m, ← exists_entry_cons ⟨rid, some "", some cmd⟩ rest m
            (by rintro ⟨-, h2, h3, -⟩; exact h3 (Option.some.inj h2).symm)]
        · rw [if_neg hdoc] at h
          split at h
          · exact absurd h (by simp)
          · next md hp =>
            split at h
            · next htagskip =>
              rw [ih out h m]
              constructor
              · rintro ⟨⟨x, hx, he⟩, ht, hf⟩
                exact ⟨⟨x, List.mem_cons_of_mem _ hx, he⟩, ht, hf⟩
              · rintro ⟨⟨x, hx, he⟩, ht, hf⟩
                rcases List.mem_cons.mp hx with rfl | hx'
                · obtain ⟨-, -, -, cmd', hc, -, hpm⟩ := he
                  obtain rfl := Option.some.inj hc
                  rw [hp] at hpm
                  rw [← Option.some.inj hpm] at ht
                  exact absurd ht htagskip
                · exact ⟨⟨x, hx', he⟩, ht, hf⟩
            · next htag' =>
              have htag : passesTagFilter request md = true := not_not.mp htag'
              split at h
              · next hrefskip =>
                rw [ih out h m]
                constructor
                · rintro ⟨⟨x, hx, he⟩, ht, hf⟩
                  exact ⟨⟨x, List.mem_cons_of_mem _ hx, he⟩, ht, hf⟩
                · rintro ⟨⟨x, hx, he⟩, ht, hf⟩
                  rcases List.mem_cons.mp hx with rfl | hx'
                  · obtain ⟨-, -, -, cmd', hc, -, hpm⟩ := he
                    obtain rfl := Option.some.inj hc
                    rw [hp] at hpm
                    rw [← Option.some.inj hpm] at hf
                    exact absurd hf hrefskip
                  · exact ⟨⟨x, hx', he⟩, ht, hf⟩
              · next href' =>
                have href : passesRefFilter request md = true := not_not.mp href'
                cases hrest : buildCandidates request rest with
                | none => rw [hrest] at h; exact absurd h (by simp)
                | some out' =>
                  rw [hrest] at h
                  simp only [Option.map_some', Option.some.injEq] at h
                  subst h
                  constructor
                  · intro hm
                    rcases List.mem_cons.mp hm with rfl | hm'
                    · exact ⟨⟨⟨rid, some doc, some cmd⟩, List.mem_cons_self _ _,
                        rfl, rfl, hdoc, cmd, rfl, rfl, hp⟩, htag, href⟩
                    · obtain ⟨⟨x, hx, he⟩, ht, hf⟩ := (ih out' hrest m).mp hm'
                      exact ⟨⟨x, List.mem_cons_of_mem _ hx, he⟩, ht, hf⟩
                  · rintro ⟨⟨x, hx, he⟩, ht, hf⟩
                    rcases List.mem_cons.mp hx with rfl | hx'
                    · obtain ⟨h1, h2, h3, cmd', hc, hty, hpm⟩ := he
                      obtain rfl := Option.some.inj hc
                      obtain ⟨mid, mcont, mtype, mmd⟩ := m
                      simp only at h1 h2 hty hpm
                      rw [hp] at hpm
                      obtain rfl := Option.some.inj hpm
                      subst h1 hty
                      rw [← Option.some.inj h2]
                      exact List.mem_cons_self _ _
                    · exact List.mem_cons_of_mem _
                        ((ih out' hrest m).mpr ⟨⟨x, hx', he⟩, ht, hf⟩)

/-- Claim C6: with a non-empty tags (resp. references) filter and the
other filter absent, a candidate memory — one some raw row
materializes — is kept iff at least one requested tag
(resp. reference) appears in its decoded set (OR semantics, not
AND). -/
theorem C6_theorem (request : SearchMemoriesRequest) (filters : SearchFilters)
    (raw : List RawResult) (out : List Memory) (m : Memory)
    (h : buildCandidates request raw = some out)
    (hfil : request.filters = some filters)
    (hcand : ∃ r ∈ raw, entryMatches r m) :
    (∀ ts, filters.tags = some ts → ts ≠ [] → filters.references = none →
      (m ∈ out ↔ ∃ t ∈ ts, t ∈ m.metadata.tags.getD [])) ∧
    (∀ rs, filters.references = some rs → rs ≠ [] → filters.tags = none →
      (m ∈ out ↔ ∃ rf ∈ rs, rf ∈ m.metadata.references.getD [])) := by
  constructor
  · intro ts hts hne hrefs
    rw [mem_buildCandidates request raw out h m]
    have href1 : passesRefFilter request m.metadata = true := by
      simp [passesRefFilter, hfil, hrefs]
    have htag1 : passesTagFilter request m.metadata =
        ts.any (fun t => (m.metadata.tags.getD []).contains t) := by
      simp [passesTagFilter, hfil, hts, List.length_pos.mpr hne]
    rw [htag1, href1]
    simp [hcand, List.any_eq_true, List.elem_iff]
  · intro rs hrs hne htags
    rw [mem_buildCandidates request raw out h m]
    have htag1 : passesTagFilter request m.metadata = true := by
      simp [passesTagFilter, hfil, htags]
    have href1 : passesRefFilter request m.metadata =
        rs.any (fun rf => (m.metadata.references.getD []).contains rf) := by
      simp [passesRefFilter, hfil, hrs, List.length_pos.mpr hne]
    rw [htag1, href1]
    simp [hcand, List.any_eq_true, List.elem_iff]

/-!
### Claim C5 — legacy records in visibility-scoped search

The comment inside `buildVisibilityFilter` states that legacy
memories without a visibility field are handled post-query, and
`checkMemoryAccess` does grant them to everyone; but the `$or` the
function builds requires `visibility` to equal one of `"public"`,
`"private"`, `"shared"`, which a record lacking the key never
satisfies, so the backend never hands such records to the
post-filter.
-/

/-- A stored legacy record: no `visibility` (and no `owner`) key. -/
def c5LegacyEntry : StoreEntry :=
  ⟨"mem_legacy", "team standup notes",
   { type := "information", createdAt := "2023-05-01T00:00:00Z",
     createdBy := some "bob" }⟩

/-- The memory the legacy record decodes to. -/
def c5Memory : Memory :=
  ⟨"mem_legacy", "team standup notes", "information",
   { createdAt := "2023-05-01T00:00:00Z", createdBy := some "bob" }⟩

/-- Claim C5, divergence at a concrete input: with a non-admin
visibility context the search returns nothing from a store holding
one legacy record, although the same search without a context
returns it and the access policy itself grants it to the same actor.
The claim (and the comment in the source) says the scoped search
would return it. -/
theorem C5_theorem :
    searchMemoriesNoQuery [c5LegacyEntry] {} (some ⟨"alice", false⟩) =
      some [] ∧
    searchMemoriesNoQuery [c5LegacyEntry] {} none = some [c5Memory] ∧
    checkMemoryAccess c5Memory "alice" false = true := by
  refine ⟨?_, ?_, ?_⟩ <;> rfl

/-!
### Claim C10 — metadata encode/decode round trip
-/

/-- A truthy-or-absent optional string survives `keepStr`. -/
theorem keepStr_eq (o : Option String) (h : o ≠ some "") : keepStr o = o := by
  cases o with
  | none => rfl
  | some s =>
    have hs : s ≠ "" := fun h0 => h (by rw [h0])
    simp [keepStr, strTruthy, hs]

/-- The canonical JSON encoding of an array is never the empty
string. -/
theorem jsonEncodeStrList_ne_empty (l : List String) :
    jsonEncodeStrList l ≠ "" := by
  intro h
  have := congrArg String.data h
  simp [jsonEncodeStrList] at this

/-- Storing then reading one optional array-valued field is the
identity, provided the field is absent or non-empty. -/
theorem optJsonField_keepList (o : Option (List String)) (h : o ≠ some []) :
    optJsonField (keepList o) = some o := by
  cases o with
  | none => rfl
  | some l =>
    have hl : l ≠ [] := fun h0 => h (by rw [h0])
    have hlen : 0 < l.length := List.length_pos.mpr hl
    simp only [keepList, if_pos hlen, optJsonField,
      if_neg (jsonEncodeStrList_ne_empty l), jsonParse_jsonEncode,
      Option.map_some']

/-- Shared round-trip lemma: `parseMetadata` inverts
`toChromaMetadata` whenever every optional string field is absent or
non-empty and every optional array field is absent or non-empty. -/
theorem parseMetadata_toChromaMetadata (t : String) (md : MemoryMetadata)
    (h1 : md.createdBy ≠ some "") (h2 : md.respondedBy ≠ some "")
    (h3 : md.response ≠ some "") (h4 : md.respondedAt ≠ some "")
    (h5 : md.owner ≠ some "") (h6 : md.visibility ≠ some "")
    (h7 : md.tags ≠ some []) (h8 : md.references ≠ some [])
    (h9 : md.sharedWith ≠ some []) :
    parseMetadata (toChromaMetadata t md) = some md := by
  obtain ⟨cAt, cBy, rBy, resp, rAt, tg, rf, ow, vis, sw⟩ := md
  simp only [toChromaMetadata, parseMetadata]
  rw [optJsonField_keepList tg h7, optJsonField_keepList rf h8,
    optJsonField_keepList sw h9]
  simp only [Option.bind_eq_bind, Option.some_bind, Option.pure_def,
    Option.some.injEq]
  rw [keepStr_eq cBy h1, keepStr_eq rBy h2, keepStr_eq resp h3,
    keepStr_eq rAt h4, keepStr_eq ow h5, keepStr_eq vis h6]

/-- Claim C10: the JSON-string encoding at the adapter boundary loses
no information — for every memory type and every metadata record
whose optional fields are each absent or non-empty,
`parseMetadata (toChromaMetadata type m) = m`. -/
theorem C10_theorem (t : String) (m : MemoryMetadata)
    (h1 : m.createdBy ≠ some "") (h2 : m.respondedBy ≠ some "")
    (h3 : m.response ≠ some "") (h4 : m.respondedAt ≠ some "")
    (h5 : m.owner ≠ some "") (h6 : m.visibility ≠ some "")
    (h7 : m.tags ≠ some []) (h8 : m.references ≠ some [])
    (h9 : m.sharedWith ≠ some []) :
    parseMetadata (toChromaMetadata t m) = some m :=
  parseMetadata_toChromaMetadata t m h1 h2 h3 h4 h5 h6 h7 h8 h9

/-- A fully populated metadata record for the round-trip witness. -/
def c10Metadata : MemoryMetadata :=
  { createdAt := "2024-06-01T12:00:00Z"
    createdBy := some "alice"
    respondedBy := some "bob"
    response := some "done"
    respondedAt := some "2024-06-02T08:00:00Z"
    tags := some ["work", "q2 \"launch\""]
    references := some ["mem_0"]
    owner := some "alice"
    visibility := some "shared"
    sharedWith := some ["bob", "carol"] }

/-- Witness for C10 at a concrete record (with a quote-bearing tag to
exercise the escaping). -/
theorem C10_witness :
    parseMetadata (toChromaMetadata "question" c10Metadata) =
      some c10Metadata :=
  C10_theorem "question" c10Metadata (by simp [c10Metadata])
    (by simp [c10Metadata]) (by simp [c10Metadata]) (by simp [c10Metadata])
    (by simp [c10Metadata]) (by simp [c10Metadata]) (by simp [c10Metadata])
    (by simp [c10Metadata]) (by simp [c10Metadata])

/-!
### Claim C7 — updateVisibility frame

The spread `{ ...memory.metadata, visibility, sharedWith }` writes
the `sharedWith` key even when the argument is omitted
(`undefined`), so an existing `sharedWith` list is cleared rather
than preserved; every other field is carried over.
-/

/-- A stored shared memory whose `sharedWith` list holds bob. -/
def c7Entry : StoreEntry :=
  ⟨"mem_s", "road map",
   { type := "information", createdAt := "2024-03-03T00:00:00Z",
     owner := some "alice", visibility := some "shared",
     sharedWith := some (jsonEncodeStrList ["bob"]) }⟩

/-- Claim C7, counterexample: updating only the visibility (the
`sharedWith` argument omitted) erases the stored `sharedWith` key,
although the prior record had one — the omitted field is not
preserved. -/
theorem C7_counterexample :
    c7Entry.metadata.sharedWith = some (jsonEncodeStrList ["bob"]) ∧
    (updateVisibility [c7Entry] "mem_s" "shared" none).2 =
      [⟨"mem_s", "road map",
        { type := "information", createdAt := "2024-03-03T00:00:00Z",
          owner := some "alice", visibility := some "shared",
          sharedWith := none }⟩] := by
  constructor <;> rfl

/-- Claim C7 (amended): for an existing, canonically stored memory,
`updateVisibility` leaves every field other than `visibility` and
`sharedWith` — content, type, createdAt, createdBy, owner, tags,
references, response fields — at its prior value, sets `visibility`
to the new value, and sets `sharedWith` to exactly the argument
(clearing it when the argument is omitted, rather than preserving
it); a missing id reports not-found and changes nothing. -/
theorem C7_theorem (store : Store) (id : String) (v : String)
    (sw : Option (List String)) (m : Memory)
    (hm : getMemory store id = some (some m)) (hv : v ≠ "")
    (hsw : sw ≠ some [])
    (h1 : m.metadata.createdBy ≠ some "")
    (h2 : m.metadata.respondedBy ≠ some "")
    (h3 : m.metadata.response ≠ some "")
    (h4 : m.metadata.respondedAt ≠ some "")
    (h5 : m.metadata.owner ≠ some "")
    (h6 : m.metadata.tags ≠ some [])
    (h7 : m.metadata.references ≠ some []) :
    (updateVisibility store id v sw).1 =
      some (some { m with metadata :=
        { m.metadata with visibility := some v, sharedWith := sw } }) ∧
    (∀ e ∈ (updateVisibility store id v sw).2,
      (e.id ≠ id → e ∈ store) ∧
      (e.id = id → ∃ e0 ∈ store, e0.id = id ∧ e.document = e0.document ∧
        parseMetadata e.metadata = some { m.metadata with
          visibility := some v, sharedWith := sw })) ∧
    (∀ (store' : Store) (id' : String),
      getMemory store' id' = some none →
      updateVisibility store' id' v sw = (some none, store')) := by
  have hround : parseMetadata (toChromaMetadata m.type
      { m.metadata with visibility := some v, sharedWith := sw }) =
      some { m.metadata with visibility := some v, sharedWith := sw } := by
    refine parseMetadata_toChromaMetadata _ _ h1 h2 h3 h4 h5 ?_ h6 h7 hsw
    simp [hv]
  refine ⟨?_, ?_, ?_⟩
  · simp [updateVisibility, hm]
  · intro e he
    simp only [updateVisibility, hm] at he
    obtain ⟨e0, he0, hmap⟩ := List.mem_map.mp he
    by_cases hid : e0.id = id
    · rw [if_pos hid] at hmap
      constructor
      · intro hne
        exact absurd (by rw [← hmap, hid]) hne
      · intro _
        exact ⟨e0, he0, hid, by rw [← hmap], by rw [← hmap]; exact hround⟩
    · rw [if_neg hid] at hmap
      constructor
      · intro _
        rw [← hmap]
        exact he0
      · intro heq
        rw [← hmap] at heq
        exact absurd heq hid
  · intro store' id' h0
    simp [updateVisibility, h0]

/-- Witness for C7: updating the concrete shared record to private
with an explicit new list returns the updated memory and persists a
record whose non-visibility fields decode unchanged. -/
theorem C7_witness :
    (updateVisibility [c7Entry] "mem_s" "private" (some ["dan"])).1 =
      some (some ⟨"mem_s", "road map", "information",
        { createdAt := "2024-03-03T00:00:00Z", tags := none,
          owner := some "alice", visibility := some "private",
          sharedWith := some ["dan"] }⟩) :=
  (C7_theorem [c7Entry] "mem_s" "private" (some ["dan"])
    ⟨"mem_s", "road map", "information",
     { createdAt := "2024-03-03T00:00:00Z", owner := some "alice",
       visibility := some "shared", sharedWith := some ["bob"] }⟩
    rfl (by simp) (by simp) (by simp) (by simp) (by simp) (by simp)
    (by simp) (by simp) (by simp)).1

/-!
### Claim C4 — read/delete asymmetry without an actor

The delete route guards its ownership check with `if (asActor)`; a
request with no (or an empty) actor token skips the check and
deletes, so the deny half of the claim only holds when an actor
token is supplied.
-/

/-- A stored private memory of alice. -/
def c4Entry : StoreEntry :=
  ⟨"mem_p", "diary entry",
   { type := "information", createdAt := "2024-02-02T00:00:00Z",
     owner := some "alice", visibility := some "private" }⟩

/-- The memory the private record decodes to. -/
def c4Memory : Memory :=
  ⟨"mem_p", "diary entry", "information",
   { createdAt := "2024-02-02T00:00:00Z", owner := some "alice",
     visibility := some "private" }⟩

/-- Claim C4, counterexample: a delete request carrying no actor
token is **not** denied — it succeeds and removes the private
memory, although no requesting actor matched the owner and no admin
override was given. -/
theorem C4_counterexample :
    routeDeleteMemory [c4Entry] "mem_p" none false =
      (RouteResult.ok (), []) := by
  rfl

/-- Claim C4 (amended): a get with no actor token returns the private
memory unchecked, and a delete with no actor token also proceeds
unchecked (removing the memory); only a delete carrying a truthy
actor token is denied unless that actor is the resolved owner or the
human admin identity with the override flag. -/
theorem C4_theorem (store : Store) (id : String) (m : Memory)
    (hm : getMemory store id = some (some m))
    (hvis : m.metadata.visibility = some "private") :
    routeGetMemory store id none false = .ok m ∧
    (routeDeleteMemory store id none false).1 = .ok () ∧
    ∀ (a : String) (adm : Bool), a ≠ "" →
      resolveOwner m.metadata ≠ some a →
      ¬ (a = HUMAN_OWNER_ID ∧ adm = true) →
      routeDeleteMemory store id (some a) adm = (.denied, store) := by
  refine ⟨?_, ?_, ?_⟩
  · simp [routeGetMemory, hm, strTruthy]
  · simp [routeDeleteMemory, strTruthy, deleteMemory, hm]
  · intro a adm ha hown hadm
    have h1 : (resolveOwner m.metadata == some a) = false :=
      beq_eq_false_iff_ne.mpr hown
    simp [routeDeleteMemory, strTruthy, ha, hm, h1, hadm]

/-- Witness for C4 on the concrete private record: unauthenticated
get succeeds, unauthenticated delete succeeds, and a delete by a
stranger is denied. -/
theorem C4_witness :
    routeGetMemory [c4Entry] "mem_p" none false = .ok c4Memory ∧
    (routeDeleteMemory [c4Entry] "mem_p" none false).1 = .ok () ∧
    routeDeleteMemory [c4Entry] "mem_p" (some "mallory") false =
      (.denied, [c4Entry]) := by
  have h := C4_theorem [c4Entry] "mem_p" c4Memory rfl rfl
  exact ⟨h.1, h.2.1, h.2.2 "mallory" false (by simp) (by simp [c4Memory, resolveOwner, strTruthy]) (by simp)⟩

/-!
### Claim C9 — decoding records with absent array fields
-/

/-- A stored record with no array-valued keys at all. -/
def c9Record : ChromaMetadata :=
  { type := "information", createdAt := "2024-04-04T00:00:00Z" }

/-- Claim C9, counterexample: a stored record lacking the `tags` key
decodes without error, but the decoded `tags` field is `none`
(absent), not the empty collection. -/
theorem C9_counterexample :
    (parseMetadata c9Record).map MemoryMetadata.tags = some none ∧
    (some (none : Option (List String))) ≠ some (some ([] : List String)) := by
  constructor
  · rfl
  · simp

/-- Claim C9 (amended): for a stored record whose encoded metadata
lacks the `tags`, `references` and `sharedWith` keys (and has a
truthy document), `getMemory` succeeds — no decoding error — and
each missing array-valued field decodes to the absent value `none`,
which every consumer reads as the empty collection. -/
theorem C9_theorem (store : Store) (id : String) (e : StoreEntry)
    (he : storeGet store id = some e) (hdoc : e.document ≠ "")
    (h1 : e.metadata.tags = none) (h2 : e.metadata.references = none)
    (h3 : e.metadata.sharedWith = none) :
    ∃ m, getMemory store id = some (some m) ∧ m.metadata.tags = none ∧
      m.metadata.references = none ∧ m.metadata.sharedWith = none := by
  have hp : parseMetadata e.metadata = some
      { createdAt := e.metadata.createdAt, createdBy := e.metadata.createdBy,
        respondedBy := e.metadata.respondedBy,
        response := e.metadata.response,
        respondedAt := e.metadata.respondedAt, tags := none,
        references := none, owner := e.metadata.owner,
        visibility := e.metadata.visibility, sharedWith := none } := by
    simp [parseMetadata, h1, h2, h3, optJsonField]
  refine ⟨⟨e.id, e.document, e.metadata.type,
    { createdAt := e.metadata.createdAt, createdBy := e.metadata.createdBy,
      respondedBy := e.metadata.respondedBy, response := e.metadata.response,
      respondedAt := e.metadata.respondedAt, tags := none,
      references := none, owner := e.metadata.owner,
      visibility := e.metadata.visibility, sharedWith := none }⟩,
    ?_, rfl, rfl, rfl⟩
  simp [getMemory, he, hdoc, hp]

/-- Witness for C9 on a concrete minimal record. -/
theorem C9_witness :
    ∃ m, getMemory
        [⟨"mem_min", "plain note",
          { type := "information", createdAt := "2024-04-04T00:00:00Z" }⟩]
        "mem_min" = some (some m) ∧
      m.metadata.tags = none ∧ m.metadata.references = none ∧
      m.metadata.sharedWith = none :=
  C9_theorem _ "mem_min"
    ⟨"mem_min", "plain note",
     { type := "information", createdAt := "2024-04-04T00:00:00Z" }⟩
    rfl (by simp) rfl rfl rfl

/-!
### Claim C8 — position-based scoring
-/

/-- Length is preserved by the indexed map. -/
theorem mapWithIndexAux_length (f : Nat → Memory → ClientMemory × ℚ)
    (i : Nat) (l : List Memory) :
    (mapWithIndexAux f i l).length = l.length := by
  induction l generalizing i with
  | nil => rfl
  | cons x xs ih => simp [mapWithIndexAux, ih]

/-- The element at position `j` of the indexed map is the function
applied at index `i + j`. -/
theorem mapWithIndexAux_get (f : Nat → Memory → ClientMemory × ℚ)
    (l : List Memory) :
    ∀ (i j : Nat) (hj : j < (mapWithIndexAux f i l).length)
      (hj' : j < l.length),
      (mapWithIndexAux f i l).get ⟨j, hj⟩ = f (i + j) (l.get ⟨j, hj'⟩) := by
  induction l with
  | nil => intro i j hj hj'; exact absurd hj' (by simp)
  | cons x xs ih =>
    intro i j hj hj'
    cases j with
    | zero => simp [mapWithIndexAux]
    | succ j' =>
      have h1 : j' < (mapWithIndexAux f (i + 1) xs).length := by
        simpa [mapWithIndexAux] using hj
      have h2 : j' < xs.length := by simpa using hj'
      have := ih (i + 1) j' h1 h2
      simp only [mapWithIndexAux, List.get_cons_succ] at *
      rw [this]
      congr 1
      omega

/-- Claim C8: the client search mapping keeps the result count and
attaches to the result at rank `i` (0-based) exactly the score
`1 − 0.1·i`; hence the first result scores 1 and each later result
scores 0.1 less than its predecessor. -/
theorem C8_theorem (data : List Memory) :
    (searchResultsOf data).length = data.length ∧
    (∀ (i : Nat) (hi : i < (searchResultsOf data).length),
      ((searchResultsOf data).get ⟨i, hi⟩).2 = 1 - (i : ℚ) / 10) ∧
    (∀ (i : Nat) (hi : i + 1 < (searchResultsOf data).length),
      ((searchResultsOf data).get ⟨i + 1, hi⟩).2 =
        ((searchResultsOf data).get
          ⟨i, Nat.lt_of_succ_lt hi⟩).2 - 1 / 10) := by
  have hlen : (searchResultsOf data).length = data.length :=
    mapWithIndexAux_length _ 0 data
  have hget : ∀ (i : Nat) (hi : i < (searchResultsOf data).length),
      ((searchResultsOf data).get ⟨i, hi⟩).2 = 1 - (i : ℚ) / 10 := by
    intro i hi
    have hi' : i < data.length := hlen ▸ hi
    show ((mapWithIndexAux
      (fun index memory => (transformMemory memory, 1 - (index : ℚ) * (1 / 10)))
      0 data).get ⟨i, hi⟩).2 = 1 - (i : ℚ) / 10
    rw [mapWithIndexAux_get _ data 0 i hi hi']
    simp
    ring
  refine ⟨hlen, hget, ?_⟩
  intro i hi
  rw [hget (i + 1) hi, hget i (Nat.lt_of_succ_lt hi)]
  push_cast
  ring

/-- Two concrete list entries for the scoring witness. -/
def c8Data : List Memory :=
  [⟨"mem_a", "alpha", "information", { createdAt := "2024-01-01" }⟩,
   ⟨"mem_b", "beta", "information", { createdAt := "2024-01-02" }⟩]

/-- Witness for C8: the second-ranked result scores exactly
`1 − 0.1·1`. -/
theorem C8_witness :
    ((searchResultsOf c8Data).get
      ⟨1, by simp [searchResultsOf, c8Data, mapWithIndexAux]⟩).2 =
      1 - (1 : ℚ) / 10 :=
  (C8_theorem c8Data).2.1 1 _

/-- Stored metadata of a candidate tagged `work`. -/
def c6Cmd1 : ChromaMetadata :=
  { type := "information", createdAt := "2024-05-05T00:00:00Z",
    tags := some (jsonEncodeStrList ["work"]) }

/-- Stored metadata of a candidate tagged `personal`. -/
def c6Cmd2 : ChromaMetadata :=
  { type := "information", createdAt := "2024-05-06T00:00:00Z",
    tags := some (jsonEncodeStrList ["personal"]) }

/-- Raw backend rows for the two tagged candidates. -/
def c6Raw : List RawResult :=
  [⟨"mem_w", some "work item", some c6Cmd1⟩,
   ⟨"mem_p", some "personal item", some c6Cmd2⟩]

/-- A search request filtering by `tags = ["work", "personal"]`. -/
def c6Request : SearchMemoriesRequest :=
  { filters := some { tags := some ["work", "personal"] } }

/-- The first candidate as a decoded memory. -/
def c6Mem1 : Memory :=
  ⟨"mem_w", "work item", "information",
   { createdAt := "2024-05-05T00:00:00Z", tags := some ["work"] }⟩

/-- The second candidate as a decoded memory. -/
def c6Mem2 : Memory :=
  ⟨"mem_p", "personal item", "information",
   { createdAt := "2024-05-06T00:00:00Z", tags := some ["personal"] }⟩

/-- Witness for C6, the spec's own scenario: candidates tagged
`["work"]` and `["personal"]`, filtered by `tags=["work","personal"]`,
are both kept — each matches one requested tag while lacking the
other. -/
theorem C6_witness :
    ∃ out, buildCandidates c6Request c6Raw = some out ∧
      c6Mem1 ∈ out ∧ c6Mem2 ∈ out := by
  refine ⟨[c6Mem1, c6Mem2], rfl, ?_, ?_⟩
  · exact ((C6_theorem c6Request { tags := some ["work", "personal"] }
      c6Raw [c6Mem1, c6Mem2] c6Mem1 rfl rfl
      ⟨⟨"mem_w", some "work item", some c6Cmd1⟩, by simp [c6Raw],
        rfl, rfl, by simp [c6Mem1], c6Cmd1, rfl, rfl, rfl⟩).1
      ["work", "personal"] rfl (by simp) rfl).mpr
      ⟨"work", by simp, by simp [c6Mem1]⟩
  · exact ((C6_theorem c6Request { tags := some ["work", "personal"] }
      c6Raw [c6Mem1, c6Mem2] c6Mem2 rfl rfl
      ⟨⟨"mem_p", some "personal item", some c6Cmd2⟩, by simp [c6Raw],
        rfl, rfl, by simp [c6Mem2], c6Cmd2, rfl, rfl, rfl⟩).1
      ["work", "personal"] rfl (by simp) rfl).mpr
      ⟨"personal", by simp, by simp [c6Mem2]⟩
